import Mathlib

/-!
Verification of scripts/tpch/generate_dists_embedded.py.

The script reads a text file, normalizes its line endings, chooses a raw-string
delimiter that cannot collide with the content, renders a fixed C++ template
around the content and writes the result.  Strings are modelled as
`List Char`, input bytes as `List (Fin 256)`.
-/

namespace GenerateDistsEmbedded

/-! Section: Decimal rendering of a natural number

Models Python's built-in decimal formatting used by the f-string
interpolation of the loop index in choose_delimiter (line 33 of the source:
the f-string writes str(index) in base 10).  The auxiliary function carries a
fuel argument so the recursion is structural; the fuel n+1 always suffices
because the argument shrinks by a factor of 10 each step. -/
def natStrAux : Nat → Nat → List Char
  | 0, _ => []
  | fuel + 1, n =>
    if n < 10 then [Nat.digitChar n]
    else natStrAux fuel (n / 10) ++ [Nat.digitChar (n % 10)]

/-- Decimal digit string of a natural number, as produced by Python str(n). -/
def natStr (n : Nat) : List Char := natStrAux (n + 1) n

theorem natStrAux_eq_natStr : ∀ fuel n, n < fuel → natStrAux fuel n = natStr n := by
  intro fuel
  induction fuel using Nat.strong_induction_on with
  | _ fuel ih =>
    intro n hn
    match fuel, hn with
    | f + 1, hn =>
      by_cases h10 : n < 10
      · simp [natStrAux, natStr, h10]
      · have hnpos : 0 < n := by omega
        have hdiv : n / 10 < n := Nat.div_lt_self hnpos (by omega)
        have h1 : natStrAux f (n / 10) = natStr (n / 10) := by
          rcases Nat.eq_or_lt_of_le (Nat.le_of_lt_succ hn) with h | h
          · exact ih f (by omega) _ (by omega)
          · exact ih f (by omega) _ (by omega)
        have h2 : natStrAux n (n / 10) = natStr (n / 10) :=
          ih n (by omega) _ hdiv
        show (if n < 10 then [Nat.digitChar n]
              else natStrAux f (n / 10) ++ [Nat.digitChar (n % 10)]) = natStr n
        rw [if_neg h10, h1]
        show natStr (n / 10) ++ [Nat.digitChar (n % 10)] = natStrAux (n + 1) n
        show natStr (n / 10) ++ [Nat.digitChar (n % 10)]
          = (if n < 10 then [Nat.digitChar n]
             else natStrAux n (n / 10) ++ [Nat.digitChar (n % 10)])
        rw [if_neg h10, h2]

theorem natStr_ge_ten (n : Nat) (h : 10 ≤ n) :
    natStr n = natStr (n / 10) ++ [Nat.digitChar (n % 10)] := by
  show natStrAux (n + 1) n = _
  show (if n < 10 then [Nat.digitChar n]
        else natStrAux n (n / 10) ++ [Nat.digitChar (n % 10)]) = _
  rw [if_neg (by omega)]
  have : n / 10 < n := Nat.div_lt_self (by omega) (by omega)
  rw [natStrAux_eq_natStr n (n / 10) this]

theorem natStr_pow_ten_length (m : Nat) : (natStr (10 ^ m)).length = m + 1 := by
  induction m with
  | zero => rfl
  | succ m ih =>
    have hge : 10 ≤ 10 ^ (m + 1) := by
      calc 10 = 10 ^ 1 := by norm_num
        _ ≤ 10 ^ (m + 1) := Nat.pow_le_pow_right (by omega) (by omega)
    rw [natStr_ge_ten _ hge]
    have hdiv : 10 ^ (m + 1) / 10 = 10 ^ m := by
      rw [pow_succ]
      exact Nat.mul_div_cancel _ (by omega)
    rw [hdiv, List.length_append, ih]
    rfl

theorem natStrAux_chars : ∀ fuel n c, c ∈ natStrAux fuel n → ∃ d, d < 10 ∧ c = Nat.digitChar d := by
  intro fuel
  induction fuel with
  | zero => intro n c hc; simp [natStrAux] at hc
  | succ f ih =>
    intro n c hc
    by_cases h10 : n < 10
    · simp [natStrAux, h10] at hc
      exact ⟨n, h10, hc⟩
    · simp [natStrAux, h10] at hc
      rcases hc with hc | hc
      · exact ih _ _ hc
      · exact ⟨n % 10, Nat.mod_lt _ (by omega), hc⟩

theorem natStr_chars (n : Nat) (c : Char) (hc : c ∈ natStr n) :
    ∃ d, d < 10 ∧ c = Nat.digitChar d := natStrAux_chars _ _ _ hc

/-! Section: Substring test

Models the Python expression pattern on lines 29 and 34 of the source:
the in / not in membership test of one string inside another, which is
substring containment.  `isSubstr m s` is true iff `m` occurs contiguously
inside `s`. -/
def isSubstr (m : List Char) : List Char → Bool
  | [] => m.isEmpty
  | c :: rest => m.isPrefixOf (c :: rest) || isSubstr m rest

theorem isSubstr_iff (m s : List Char) : isSubstr m s = true ↔ m <:+: s := by
  induction s with
  | nil =>
    simp [isSubstr, List.isEmpty_iff, List.infix_nil]
  | cons c rest ih =>
    show (m.isPrefixOf (c :: rest) || isSubstr m rest) = true ↔ _
    rw [Bool.or_eq_true, List.isPrefixOf_iff_prefix, ih, List.infix_cons_iff]

theorem isSubstr_eq_false_iff (m s : List Char) : isSubstr m s = false ↔ ¬ m <:+: s := by
  rw [← isSubstr_iff]
  simp

/-! Section: Delimiter chooser (source lines 27-36)

The Python loop tries candidates base, base_1, base_2, ... and returns the
first one c for which the string ")" + c does not occur in the data.  The
loop is embedded by well-founded recursion on the distance to the first
acceptable index, which exists because a long enough candidate cannot be a
substring of the finite data. -/

/-- Suffixed candidate delimiter, the f-string on source line 33:
base + underscore + decimal index. -/
def candidate (base : List Char) (k : Nat) : List Char := base ++ '_' :: natStr k

/-- Some suffixed candidate at or beyond any start index is acceptable:
a candidate whose decimal suffix has more digits than the data has
characters cannot occur inside it. -/
theorem exists_good_ge (d b : List Char) (i : Nat) :
    ∃ k, i ≤ k ∧ isSubstr (')' :: candidate b k) d = false := by
  refine ⟨10 ^ (d.length + i), ?_, ?_⟩
  · have h10 : d.length + i < 10 ^ (d.length + i) :=
      Nat.lt_pow_self (by omega) (d.length + i)
    omega
  · rw [isSubstr_eq_false_iff]
    intro hinf
    have hlen := hinf.length_le
    simp [candidate] at hlen
    rw [natStr_pow_ten_length] at hlen
    omega

/-- First index at or beyond i whose candidate is acceptable for data d. -/
def firstGoodFrom (d b : List Char) (i : Nat) : Nat := Nat.find (exists_good_ge d b i)

theorem firstGoodFrom_ge (d b : List Char) (i : Nat) : i ≤ firstGoodFrom d b i :=
  (Nat.find_spec (exists_good_ge d b i)).1

theorem firstGoodFrom_good (d b : List Char) (i : Nat) :
    isSubstr (')' :: candidate b (firstGoodFrom d b i)) d = false :=
  (Nat.find_spec (exists_good_ge d b i)).2

theorem firstGoodFrom_min (d b : List Char) (i j : Nat) (hij : i ≤ j)
    (hj : j < firstGoodFrom d b i) : isSubstr (')' :: candidate b j) d = true := by
  have hmin := Nat.find_min (exists_good_ge d b i) hj
  simp only [not_and] at hmin
  have := hmin hij
  simpa using this

theorem firstGoodFrom_eq_self (d b : List Char) (i : Nat)
    (hgood : isSubstr (')' :: candidate b i) d = false) :
    firstGoodFrom d b i = i :=
  Nat.le_antisymm (Nat.find_min' _ ⟨Nat.le_refl i, hgood⟩) (firstGoodFrom_ge d b i)

theorem firstGoodFrom_succ (d b : List Char) (i : Nat)
    (hbad : isSubstr (')' :: candidate b i) d = true) :
    firstGoodFrom d b (i + 1) = firstGoodFrom d b i := by
  have hge := firstGoodFrom_ge d b i
  have hgood := firstGoodFrom_good d b i
  have hne : firstGoodFrom d b i ≠ i := by
    intro heq
    rw [heq, hbad] at hgood
    exact Bool.noConfusion hgood
  apply Nat.le_antisymm
  · exact Nat.find_min' _ ⟨by omega, hgood⟩
  · exact Nat.find_min' _
      ⟨Nat.le_of_succ_le (firstGoodFrom_ge d b (i + 1)), firstGoodFrom_good d b (i + 1)⟩

/-- The while-loop of choose_delimiter, source lines 31-36: starting from a
given index, return the first suffixed candidate whose closing sequence does
not occur in the data; otherwise try the next index. -/
def chooseLoop (d b : List Char) (i : Nat) : List Char :=
  if h : isSubstr (')' :: candidate b i) d then chooseLoop d b (i + 1)
  else candidate b i
termination_by firstGoodFrom d b i - i
decreasing_by
  have hge := firstGoodFrom_ge d b i
  have hgood := firstGoodFrom_good d b i
  have hne : firstGoodFrom d b i ≠ i := by
    intro heq
    rw [heq, h] at hgood
    exact Bool.noConfusion hgood
  rw [firstGoodFrom_succ d b i h]
  omega

/-- choose_delimiter, source lines 27-36: return the base if ")" + base does
not occur in the data, else enter the suffix loop at index 1. -/
def choose_delimiter (data base : List Char) : List Char :=
  if isSubstr (')' :: base) data then chooseLoop data base 1
  else base

theorem chooseLoop_eq (d b : List Char) (i : Nat) :
    chooseLoop d b i = if _h : isSubstr (')' :: candidate b i) d then chooseLoop d b (i + 1)
      else candidate b i := by
  rw [chooseLoop]

theorem chooseLoop_eq_firstGoodFrom (d b : List Char) (i : Nat) :
    chooseLoop d b i = candidate b (firstGoodFrom d b i) := by
  have H : ∀ n j, firstGoodFrom d b j - j ≤ n →
      chooseLoop d b j = candidate b (firstGoodFrom d b j) := by
    intro n
    induction n with
    | zero =>
      intro j hj
      have hge := firstGoodFrom_ge d b j
      have heq : firstGoodFrom d b j = j := by omega
      have hgood := firstGoodFrom_good d b j
      rw [heq] at hgood
      rw [chooseLoop_eq, dif_neg (by simp [hgood]), heq]
    | succ n ih =>
      intro j hj
      by_cases hbad : isSubstr (')' :: candidate b j) d = true
      · have hsucc := firstGoodFrom_succ d b j hbad
        have hge := firstGoodFrom_ge d b j
        have hne : firstGoodFrom d b j ≠ j := by
          intro heq
          have hgood := firstGoodFrom_good d b j
          rw [heq, hbad] at hgood
          exact Bool.noConfusion hgood
        rw [chooseLoop_eq, dif_pos hbad, ih (j + 1) (by omega), hsucc]
      · have hgood : isSubstr (')' :: candidate b j) d = false := by
          cases hx : isSubstr (')' :: candidate b j) d
          · rfl
          · exact absurd hx hbad
        rw [chooseLoop_eq, dif_neg hbad, firstGoodFrom_eq_self d b j hgood]
  exact H (firstGoodFrom d b i - i) i (Nat.le_refl _)

/-- The chosen delimiter is either the base itself or a suffixed candidate. -/
theorem choose_delimiter_shape (data base : List Char) :
    choose_delimiter data base = base
      ∨ ∃ k, 1 ≤ k ∧ choose_delimiter data base = candidate base k := by
  unfold choose_delimiter
  by_cases h : isSubstr (')' :: base) data = true
  · rw [if_pos h, chooseLoop_eq_firstGoodFrom]
    exact Or.inr ⟨firstGoodFrom data base 1, firstGoodFrom_ge data base 1, rfl⟩
  · rw [if_neg h]
    exact Or.inl rfl

/-- The closing sequence built from the chosen delimiter never occurs in the
data (key safety property of choose_delimiter). -/
theorem choose_delimiter_good (data base : List Char) :
    isSubstr (')' :: choose_delimiter data base) data = false := by
  unfold choose_delimiter
  by_cases h : isSubstr (')' :: base) data = true
  · rw [if_pos h, chooseLoop_eq_firstGoodFrom]
    exact firstGoodFrom_good data base 1
  · rw [if_neg h]
    cases hx : isSubstr (')' :: base) data
    · rfl
    · exact absurd hx h

/-! Section: Line-ending normalization (source lines 59-61)

The source runs data.replace with carriage-return line-feed replaced by
line-feed, then replace with lone carriage-return replaced by line-feed, and
finally appends a line-feed when the text does not already end with one.
Python str.replace substitutes non-overlapping occurrences left to right,
which for the two-character pattern is the scan below. -/

/-- Left-to-right replacement of the two-character sequence CR LF by LF,
modelling data.replace on source line 59 for that fixed pattern. -/
def replaceCRLF : List Char → List Char
  | [] => []
  | [c] => [c]
  | c1 :: c2 :: rest =>
    if c1 = '\r' ∧ c2 = '\n' then '\n' :: replaceCRLF rest
    else c1 :: replaceCRLF (c2 :: rest)

/-- Replacement of every lone CR by LF, modelling the second replace on
source line 59 (a one-character pattern replaces characterwise). -/
def replaceCR : List Char → List Char
  | [] => []
  | c :: rest => (if c = '\r' then '\n' else c) :: replaceCR rest

/-- Append a trailing LF when the text does not end with one, modelling
source lines 60-61; endswith on a one-character suffix is a test of the
last character. -/
def ensureNL (s : List Char) : List Char :=
  if s.getLast? = some '\n' then s else s ++ ['\n']

/-- Full normalization pipeline of source lines 59-61. -/
def normalizeText (s : List Char) : List Char := ensureNL (replaceCR (replaceCRLF s))

theorem replaceCR_no_cr (s : List Char) : '\r' ∉ replaceCR s := by
  induction s with
  | nil => simp [replaceCR]
  | cons c rest ih =>
    simp only [replaceCR, List.mem_cons, not_or]
    refine ⟨?_, ih⟩
    by_cases hc : c = '\r'
    · simp [hc]
    · simp [hc]
      intro h
      exact hc h.symm

theorem replaceCRLF_no_cr (s : List Char) (h : '\r' ∉ s) : replaceCRLF s = s := by
  induction s using replaceCRLF.induct with
  | case1 => rfl
  | case2 c => rfl
  | case3 c1 c2 rest hcr ih =>
    exact absurd (by simp [hcr.1] : '\r' ∈ c1 :: c2 :: rest) h
  | case4 c1 c2 rest hcond ih =>
    have hc1 : c1 ≠ '\r' := by
      intro heq
      exact h (by simp [heq])
    rw [replaceCRLF, if_neg hcond]
    rw [ih (by
      intro hmem
      exact h (List.mem_cons_of_mem _ hmem))]

theorem replaceCR_no_cr_id (s : List Char) (h : '\r' ∉ s) : replaceCR s = s := by
  induction s with
  | nil => rfl
  | cons c rest ih =>
    have hc : c ≠ '\r' := by
      intro heq
      exact h (by simp [heq])
    simp only [replaceCR, if_neg hc]
    rw [ih (by
      intro hmem
      exact h (List.mem_cons_of_mem _ hmem))]

theorem ensureNL_getLast (s : List Char) : (ensureNL s).getLast? = some '\n' := by
  unfold ensureNL
  by_cases h : s.getLast? = some '\n'
  · rw [if_pos h]
    exact h
  · rw [if_neg h]
    exact List.getLast?_concat s

theorem ensureNL_mem (s : List Char) (c : Char) (h : c ∈ ensureNL s) : c ∈ s ∨ c = '\n' := by
  unfold ensureNL at h
  by_cases hl : s.getLast? = some '\n'
  · rw [if_pos hl] at h
    exact Or.inl h
  · rw [if_neg hl] at h
    rcases List.mem_append.mp h with h | h
    · exact Or.inl h
    · simp at h
      exact Or.inr h

theorem ensureNL_id (s : List Char) (h : s.getLast? = some '\n') : ensureNL s = s := by
  unfold ensureNL
  rw [if_pos h]

theorem normalizeText_no_cr (s : List Char) : '\r' ∉ normalizeText s := by
  unfold normalizeText
  intro h
  rcases ensureNL_mem _ _ h with h | h
  · exact replaceCR_no_cr _ h
  · exact absurd h (by decide)

theorem normalizeText_getLast (s : List Char) : (normalizeText s).getLast? = some '\n' :=
  ensureNL_getLast _

theorem normalizeText_ne_nil (s : List Char) : normalizeText s ≠ [] := by
  intro h
  have := normalizeText_getLast s
  rw [h] at this
  exact Option.noConfusion this

theorem normalizeText_idem (s : List Char) : normalizeText (normalizeText s) = normalizeText s := by
  have hno : '\r' ∉ normalizeText s := normalizeText_no_cr s
  show ensureNL (replaceCR (replaceCRLF (normalizeText s))) = normalizeText s
  rw [replaceCRLF_no_cr _ hno, replaceCR_no_cr_id _ hno,
    ensureNL_id _ (normalizeText_getLast s)]

/-! Section: Input decoding (source lines 54-57)

The source reads the input as UTF-8 text and, when UTF-8 decoding raises,
re-reads the raw bytes and decodes them as Latin-1.  The strict UTF-8 codec
is modelled below (multi-byte sequences with the standard continuation
ranges, rejecting overlong forms, surrogates and code points beyond
0x10FFFF); Latin-1 maps every byte to the character of the same code.
A fuel argument keeps the decoder structurally recursive; the list length
is always enough fuel because every step consumes at least one byte. -/
def utf8DecodeAux : Nat → List (Fin 256) → Option (List Char)
  | _, [] => some []
  | 0, _ :: _ => none
  | fuel + 1, b :: rest =>
    if b.val < 0x80 then
      (utf8DecodeAux fuel rest).map (fun s => Char.ofNat b.val :: s)
    else if b.val < 0xC2 then none
    else if b.val < 0xE0 then
      match rest with
      | b1 :: rest1 =>
        if 0x80 ≤ b1.val ∧ b1.val < 0xC0 then
          (utf8DecodeAux fuel rest1).map
            (fun s => Char.ofNat ((b.val - 0xC0) * 0x40 + (b1.val - 0x80)) :: s)
        else none
      | [] => none
    else if b.val < 0xF0 then
      match rest with
      | b1 :: b2 :: rest2 =>
        if (if b.val = 0xE0 then 0xA0 else 0x80) ≤ b1.val
            ∧ b1.val < (if b.val = 0xED then 0xA0 else 0xC0)
            ∧ 0x80 ≤ b2.val ∧ b2.val < 0xC0 then
          (utf8DecodeAux fuel rest2).map
            (fun s => Char.ofNat ((b.val - 0xE0) * 0x1000
              + (b1.val - 0x80) * 0x40 + (b2.val - 0x80)) :: s)
        else none
      | _ => none
    else if b.val < 0xF5 then
      match rest with
      | b1 :: b2 :: b3 :: rest3 =>
        if (if b.val = 0xF0 then 0x90 else 0x80) ≤ b1.val
            ∧ b1.val < (if b.val = 0xF4 then 0x90 else 0xC0)
            ∧ 0x80 ≤ b2.val ∧ b2.val < 0xC0
            ∧ 0x80 ≤ b3.val ∧ b3.val < 0xC0 then
          (utf8DecodeAux fuel rest3).map
            (fun s => Char.ofNat ((b.val - 0xF0) * 0x40000
              + (b1.val - 0x80) * 0x1000 + (b2.val - 0x80) * 0x40 + (b3.val - 0x80)) :: s)
        else none
      | _ => none
    else none

/-- Strict UTF-8 decoding of a byte sequence, None on any invalid sequence;
models the read_text call with UTF-8 encoding on source line 55. -/
def utf8Decode (bytes : List (Fin 256)) : Option (List Char) :=
  utf8DecodeAux bytes.length bytes

/-- Latin-1 decoding, which maps every byte to the character with the same
code and therefore succeeds on every byte sequence; models the decode call
on source line 57. -/
def latin1Decode (bytes : List (Fin 256)) : List Char :=
  bytes.map (fun b => Char.ofNat b.val)

/-- Decoded input text: UTF-8 when that succeeds, otherwise the Latin-1
fallback (source lines 54-57). -/
def decodeInput (bytes : List (Fin 256)) : List Char :=
  match utf8Decode bytes with
  | some s => s
  | none => latin1Decode bytes

/-- Normalized Content of an input byte sequence: decode, then normalize
line endings (source lines 54-61). -/
def normalizedContent (bytes : List (Fin 256)) : List Char :=
  normalizeText (decodeInput bytes)

theorem latin1Decode_length (bytes : List (Fin 256)) :
    (latin1Decode bytes).length = bytes.length := by
  simp [latin1Decode]

theorem latin1Decode_vals (bytes : List (Fin 256)) :
    (latin1Decode bytes).map Char.toNat = bytes.map Fin.val := by
  unfold latin1Decode
  rw [List.map_map]
  apply List.map_congr_left
  intro b _
  show Char.toNat (Char.ofNat b.val) = b.val
  have hv : Nat.isValidChar b.val := Or.inl (by
    have := b.isLt
    omega)
  unfold Char.ofNat
  rw [dif_pos hv]
  rfl

theorem decodeInput_of_some (bytes : List (Fin 256)) (s : List Char)
    (h : utf8Decode bytes = some s) : decodeInput bytes = s := by
  unfold decodeInput
  rw [h]

theorem decodeInput_of_none (bytes : List (Fin 256))
    (h : utf8Decode bytes = none) : decodeInput bytes = latin1Decode bytes := by
  unfold decodeInput
  rw [h]

/-! Section: Template rendering (source lines 63-75)

The output string is the concatenation of f-string pieces of main.  The
pieces are grouped around the raw-string-literal markers: the opening marker
is the text R, double quote, delimiter, opening parenthesis; the closing
marker is closing parenthesis, delimiter, double quote.  The source writes
the opening marker followed immediately by a line feed and then the data
(the f-string piece on source line 70 ends with the backslash-n that the
template itself adds before the content), so the literal body is that line
feed followed by the data. -/

/-- Fixed base token passed to choose_delimiter on source line 63. -/
def baseToken : List Char := "TPCH_DISTS".data

/-- Header text before the label (source line 67). -/
def headerPre : List Char := "/* Auto-generated from ".data

/-- Template text between the label and the opening raw-string marker
(source lines 67-70). -/
def headerPost : List Char :=
  ". */\n#include <cstddef>\n\nextern \"C\" \x7b\nextern const char tpch_dists_data[] = ".data

/-- Opening raw-string marker R-quote-delimiter-parenthesis (source line 70). -/
def openMarker (delim : List Char) : List Char := "R\"".data ++ delim ++ "(".data

/-- Closing raw-string marker parenthesis-delimiter-quote (source line 72). -/
def closeMarker (delim : List Char) : List Char := ")".data ++ delim ++ "\"".data

/-- Template text after the closing marker (source lines 72-74): the
semicolon ending the declaration, the size definition and the closing
brace. -/
def footer : List Char :=
  ";\nextern const size_t tpch_dists_size = sizeof(tpch_dists_data) - 1;\n\x7d  // extern \"C\"\n".data

/-- Delimiter chosen by main for a given input (source line 63). -/
def delimOf (bytes : List (Fin 256)) : List Char :=
  choose_delimiter (normalizedContent bytes) baseToken

/-- Rendered output text of main (source lines 66-75), a pure function of
the input bytes and the label.  The concatenation reproduces the f-string
pieces of the source; the closing quote of the raw literal is the first
character of footer, and the line feed the template writes right after the
opening marker is kept with the literal body. -/
def renderOutput (bytes : List (Fin 256)) (label : List Char) : List Char :=
  headerPre ++ label ++ headerPost
    ++ openMarker (delimOf bytes) ++ ('\n' :: normalizedContent bytes)
    ++ closeMarker (delimOf bytes) ++ footer

/-- Effect of one run of the tool on the output file, whose previous
content (if the file existed) is the argument: the file is overwritten with
the rendered text regardless of what was there (source lines 77-78). -/
def runTool (bytes : List (Fin 256)) (label : List Char)
    (_prev : Option (List Char)) : Option (List Char) :=
  some (renderOutput bytes label)

/-! Section: Marker extraction

To state the round-trip property, the text after the first occurrence of a
marker and the text before the first occurrence of a marker are computed by
a direct scan. -/

/-- Text after the first occurrence of marker m, scanning left to right;
empty when m does not occur. -/
def dropThrough (m : List Char) : List Char → List Char
  | [] => []
  | c :: rest =>
    if m.isPrefixOf (c :: rest) then (c :: rest).drop m.length
    else dropThrough m rest

/-- Text before the first occurrence of marker m, scanning left to right;
the whole text when m does not occur. -/
def takeUntil (m : List Char) : List Char → List Char
  | [] => []
  | c :: rest =>
    if m.isPrefixOf (c :: rest) then []
    else c :: takeUntil m rest

/-- Byte span of the generated file strictly between the opening and the
closing raw-string markers: everything after the first opening marker, cut
at the next closing marker. -/
def literalSpan (bytes : List (Fin 256)) (label : List Char) : List Char :=
  takeUntil (closeMarker (delimOf bytes))
    (dropThrough (openMarker (delimOf bytes)) (renderOutput bytes label))

/-- Character array of the generated unit: the raw-literal body plus the
implicit NUL terminator that the array initialization from a string literal
appends. -/
def tpch_dists_data (bytes : List (Fin 256)) (label : List Char) : List Char :=
  literalSpan bytes label ++ [Char.ofNat 0]

/-- Size value of the generated unit: sizeof the array minus one
(source line 73). -/
def tpch_dists_size (bytes : List (Fin 256)) (label : List Char) : Nat :=
  (tpch_dists_data bytes label).length - 1

/-! Section: First-occurrence boundary lemmas

When no occurrence of the marker starts inside the prefix, the scan finds
exactly the explicit occurrence between prefix and suffix. -/

theorem dropThrough_boundary (m pre post : List Char) (hm : m ≠ [])
    (H : ∀ t, t ≠ [] → t <:+ pre → ¬ m <+: (t ++ (m ++ post))) :
    dropThrough m (pre ++ (m ++ post)) = post := by
  induction pre with
  | nil =>
    rw [List.nil_append]
    match m, hm with
    | c :: m', _ =>
      show (if (c :: m').isPrefixOf _ then _ else _) = post
      rw [if_pos (by
        rw [List.isPrefixOf_iff_prefix]
        exact List.prefix_append _ _)]
      exact List.drop_left _ _
  | cons c pre' ih =>
    rw [List.cons_append]
    show (if m.isPrefixOf (c :: (pre' ++ (m ++ post))) then _ else _) = post
    rw [if_neg (by
      rw [List.isPrefixOf_iff_prefix, ← List.cons_append]
      exact H (c :: pre') (by simp) (List.suffix_refl _))]
    exact ih (by
      intro t ht hts
      exact H t ht (hts.trans (List.suffix_cons c pre')))

theorem takeUntil_boundary (m pre post : List Char) (hm : m ≠ [])
    (H : ∀ t, t ≠ [] → t <:+ pre → ¬ m <+: (t ++ (m ++ post))) :
    takeUntil m (pre ++ (m ++ post)) = pre := by
  induction pre with
  | nil =>
    rw [List.nil_append]
    match m, hm with
    | c :: m', _ =>
      show (if (c :: m').isPrefixOf _ then _ else _) = []
      rw [if_pos (by
        rw [List.isPrefixOf_iff_prefix]
        exact List.prefix_append _ _)]
  | cons c pre' ih =>
    rw [List.cons_append]
    show (if m.isPrefixOf (c :: (pre' ++ (m ++ post))) then _ else _) = c :: pre'
    rw [if_neg (by
      rw [List.isPrefixOf_iff_prefix, ← List.cons_append]
      exact H (c :: pre') (by simp) (List.suffix_refl _))]
    rw [ih (by
      intro t ht hts
      exact H t ht (hts.trans (List.suffix_cons c pre')))]

/-- An occurrence of a two-character pattern in a concatenation lies in the
left part, in the right part, or across the boundary. -/
theorem pair_infix_append (a b : Char) (x y : List Char) (h : [a, b] <:+: x ++ y) :
    [a, b] <:+: x ∨ [a, b] <:+: y ∨ (x.getLast? = some a ∧ y.head? = some b) := by
  induction x with
  | nil =>
    rw [List.nil_append] at h
    exact Or.inr (Or.inl h)
  | cons c x' ih =>
    rw [List.cons_append, List.infix_cons_iff] at h
    rcases h with h | h
    · rw [List.cons_prefix_cons] at h
      obtain ⟨hac, hb⟩ := h
      cases x' with
      | nil =>
        obtain ⟨t, ht⟩ := hb
        rw [List.nil_append] at ht
        refine Or.inr (Or.inr ⟨by simp [hac], ?_⟩)
        rw [← ht]
        rfl
      | cons e x'' =>
        rw [List.cons_append, List.cons_prefix_cons] at hb
        obtain ⟨hbe, _⟩ := hb
        refine Or.inl (List.IsPrefix.isInfix ?_)
        rw [List.cons_prefix_cons]
        exact ⟨hac, by
          rw [List.cons_prefix_cons]
          exact ⟨hbe, List.nil_prefix⟩⟩
    · rcases ih h with h | h | ⟨hl, hh⟩
      · exact Or.inl (List.infix_cons h)
      · exact Or.inr (Or.inl h)
      · refine Or.inr (Or.inr ⟨?_, hh⟩)
        have hx' : x' ≠ [] := by
          intro hnil
          rw [hnil] at hl
          exact Option.noConfusion hl
        match x', hx', hl with
        | e :: x'', _, hl =>
          rw [List.getLast?_cons_cons]
          exact hl

set_option maxRecDepth 4096 in
/-- The pattern R-quote does not occur in the header when the label holds
no double-quote character. -/
theorem no_rq_in_header (label : List Char) (hq : '"' ∉ label) :
    ¬ ['R', '"'] <:+: (headerPre ++ (label ++ headerPost)) := by
  intro h
  rcases pair_infix_append _ _ _ _ h with h | h | ⟨hl, _⟩
  · exact absurd h (by decide)
  · rcases pair_infix_append _ _ _ _ h with h | h | ⟨_, hh⟩
    · exact hq (h.subset (by simp))
    · exact absurd h (by decide)
    · exact absurd hh (by decide)
  · exact absurd hl (by decide)

/-- No occurrence of the opening marker starts inside the header: the
marker opens with R-quote, the fixed header text holds no R, and a
quote-free label cannot supply the quote. -/
theorem openMarker_not_early (delim label post : List Char) (hq : '"' ∉ label) :
    ∀ t, t ≠ [] → t <:+ (headerPre ++ label ++ headerPost)
      → ¬ openMarker delim <+: (t ++ (openMarker delim ++ post)) := by
  intro t ht hts hpre
  have hopen : openMarker delim = 'R' :: '"' :: (delim ++ ['(']) := by
    simp [openMarker]
  rw [hopen] at hpre
  match t, ht with
  | a :: t', _ =>
    rw [List.cons_append, List.cons_prefix_cons] at hpre
    obtain ⟨haR, hpre⟩ := hpre
    match t' with
    | [] =>
      rw [List.nil_append, List.cons_append, List.cons_prefix_cons] at hpre
      exact absurd hpre.1 (by decide)
    | a2 :: t'' =>
      rw [List.cons_append, List.cons_prefix_cons] at hpre
      obtain ⟨haq, _⟩ := hpre
      have hpair : ['R', '"'] <:+: (headerPre ++ label ++ headerPost) := by
        apply List.IsInfix.trans _ hts.isInfix
        apply List.IsPrefix.isInfix
        rw [List.cons_prefix_cons]
        refine ⟨haR, ?_⟩
        rw [List.cons_prefix_cons]
        exact ⟨haq, List.nil_prefix⟩
      rw [List.append_assoc] at hpair
      exact no_rq_in_header label hq hpair

/-- No occurrence of the closing marker starts inside the literal body:
an occurrence fully inside the body would put the forbidden
parenthesis-delimiter sequence into the content, and an occurrence
straddling the boundary would force a parenthesis inside the delimiter. -/
theorem closeMarker_not_early (data delim post : List Char)
    (hguar : ¬ (')' :: delim) <:+: data) (hparen : ')' ∉ delim) :
    ∀ t, t ≠ [] → t <:+ ('\n' :: data)
      → ¬ closeMarker delim <+: (t ++ (closeMarker delim ++ post)) := by
  intro t ht hts hpre
  have hclose : closeMarker delim = ')' :: (delim ++ ['"']) := by
    simp [closeMarker]
  by_cases hlen : (closeMarker delim).length ≤ t.length
  · have htake : ((t ++ (closeMarker delim ++ post)).take (closeMarker delim).length) = t.take (closeMarker delim).length :=
      List.take_append_of_le_length hlen
    have hct : closeMarker delim <+: t := by
      have h1 := List.prefix_iff_eq_take.mp hpre
      rw [htake] at h1
      exact List.prefix_iff_eq_take.mpr h1
    have hpd : (')' :: delim) <+: closeMarker delim := by
      rw [hclose, List.cons_prefix_cons]
      exact ⟨rfl, List.prefix_append _ _⟩
    have hinf : (')' :: delim) <:+: ('\n' :: data) :=
      ((hpd.trans hct).isInfix).trans hts.isInfix
    rw [List.infix_cons_iff] at hinf
    rcases hinf with hinf | hinf
    · rw [List.cons_prefix_cons] at hinf
      exact absurd hinf.1 (by decide)
    · exact hguar hinf
  · obtain ⟨u, hu⟩ := hpre
    have hlen' : t.length ≤ (closeMarker delim).length := by omega
    have htake : (closeMarker delim).take t.length = t := by
      calc (closeMarker delim).take t.length
          = ((closeMarker delim) ++ u).take t.length :=
            (List.take_append_of_le_length hlen').symm
        _ = (t ++ (closeMarker delim ++ post)).take t.length := by rw [hu]
        _ = t := List.take_left _ _
    have hsplit := List.take_append_drop t.length (closeMarker delim)
    rw [htake] at hsplit
    have hx : (closeMarker delim).drop t.length ++ u = closeMarker delim ++ post := by
      have h1 : t ++ ((closeMarker delim).drop t.length ++ u)
          = t ++ (closeMarker delim ++ post) := by
        rw [← List.append_assoc, hsplit]
        exact hu
      exact List.append_cancel_left h1
    have hrne : (closeMarker delim).drop t.length ≠ [] := by
      have hld : ((closeMarker delim).drop t.length).length
          = (closeMarker delim).length - t.length := List.length_drop _ _
      intro hnil
      rw [hnil] at hld
      simp at hld
      omega
    match hr : (closeMarker delim).drop t.length, hrne with
    | rc :: r', _ =>
      rw [hr] at hx
      have hrc : rc = ')' := by
        have : closeMarker delim ++ post = ')' :: ((delim ++ ['"']) ++ post) := by
          rw [hclose, List.cons_append]
        rw [this] at hx
        have := List.cons_prefix_cons.mp ⟨u, hx⟩
        exact this.1
      have hmem : rc ∈ delim ++ ['"'] := by
        have hsub : rc :: r' <:+ delim ++ ['"'] := by
          rw [← hr]
          match t, ht with
          | a :: t', _ =>
            have hdd : (closeMarker delim).drop (a :: t').length
                = (delim ++ ['"']).drop t'.length := by
              rw [hclose, List.length_cons, List.drop_succ_cons]
            rw [hdd]
            exact List.drop_suffix _ _
        exact hsub.subset (List.mem_cons_self _ _)
      rw [hrc] at hmem
      rcases List.mem_append.mp hmem with hmem | hmem
      · exact hparen hmem
      · simp at hmem

/-- The closing sequence of the chosen delimiter never occurs in the
normalized content. -/
theorem delimOf_guarantee (bytes : List (Fin 256)) :
    ¬ (')' :: delimOf bytes) <:+: normalizedContent bytes :=
  (isSubstr_eq_false_iff _ _).mp (choose_delimiter_good _ _)

/-- The chosen delimiter holds no closing parenthesis: it is the base token
or the base token, an underscore and decimal digits. -/
theorem delimOf_no_paren (bytes : List (Fin 256)) : ')' ∉ delimOf bytes := by
  unfold delimOf
  rcases choose_delimiter_shape (normalizedContent bytes) baseToken with h | ⟨k, _, h⟩
  · rw [h]
    decide
  · rw [h]
    intro hmem
    unfold candidate at hmem
    rcases List.mem_append.mp hmem with hmem | hmem
    · exact absurd hmem (by decide)
    · rcases List.mem_cons.mp hmem with hmem | hmem
      · exact absurd hmem (by decide)
      · obtain ⟨d, hd, heq⟩ := natStr_chars _ _ hmem
        have hne : ∀ e, e < 10 → Nat.digitChar e ≠ ')' := by decide
        exact hne d hd heq.symm

/-- Between the opening and the closing raw-string markers of the generated
file stands exactly one line feed followed by the normalized Content,
provided the label supplies no double-quote character that could fake an
opening marker inside the header comment. -/
theorem literalSpan_eq (bytes : List (Fin 256)) (label : List Char) (hq : '"' ∉ label) :
    literalSpan bytes label = '\n' :: normalizedContent bytes := by
  have hshape : renderOutput bytes label
      = (headerPre ++ label ++ headerPost)
        ++ (openMarker (delimOf bytes)
          ++ (('\n' :: normalizedContent bytes)
            ++ (closeMarker (delimOf bytes) ++ footer))) := by
    simp [renderOutput, List.append_assoc]
  unfold literalSpan
  rw [hshape]
  rw [dropThrough_boundary _ _ _ (by simp [openMarker])
    (openMarker_not_early (delimOf bytes) label _ hq)]
  exact takeUntil_boundary _ _ _ (by simp [closeMarker])
    (closeMarker_not_early (normalizedContent bytes) (delimOf bytes) footer
      (delimOf_guarantee bytes) (delimOf_no_paren bytes))

/-! Section: Fuel-indexed loop and remaining helper definitions -/

/-- Fuel-indexed version of the while-loop of choose_delimiter: identical
iteration, but gives up with none when the iteration budget runs out.  Used
to state that the unbounded source loop answers after finitely many
iterations. -/
def chooseLoopFuel (d b : List Char) : Nat → Nat → Option (List Char)
  | 0, _ => none
  | fuel + 1, i =>
    if isSubstr (')' :: candidate b i) d then chooseLoopFuel d b fuel (i + 1)
    else some (candidate b i)

theorem chooseLoopFuel_sufficient (d b : List Char) :
    ∀ fuel i, firstGoodFrom d b i - i < fuel →
      chooseLoopFuel d b fuel i = some (chooseLoop d b i) := by
  intro fuel
  induction fuel with
  | zero => intro i h; omega
  | succ f ih =>
    intro i h
    by_cases hbad : isSubstr (')' :: candidate b i) d = true
    · have hsucc := firstGoodFrom_succ d b i hbad
      have hge := firstGoodFrom_ge d b i
      have hne : firstGoodFrom d b i ≠ i := by
        intro heq
        have hgood := firstGoodFrom_good d b i
        rw [heq, hbad] at hgood
        exact Bool.noConfusion hgood
      show (if isSubstr (')' :: candidate b i) d then chooseLoopFuel d b f (i + 1)
        else some (candidate b i)) = _
      rw [if_pos hbad, ih (i + 1) (by rw [hsucc]; omega),
        chooseLoop_eq d b i, dif_pos hbad]
    · show (if isSubstr (')' :: candidate b i) d then chooseLoopFuel d b f (i + 1)
        else some (candidate b i)) = _
      rw [if_neg hbad, chooseLoop_eq d b i, dif_neg hbad]

/-- UTF-8 bytes of the scenario input text hello CR LF world CR LF. -/
def helloBytes : List (Fin 256) := [104, 101, 108, 108, 111, 13, 10, 119, 111, 114, 108, 100, 13, 10]

/-- Size value expressed through the normalized Content: the literal body
is the line feed the template adds plus the Content. -/
theorem tpch_dists_size_eq (bytes : List (Fin 256)) (label : List Char)
    (hq : '"' ∉ label) :
    tpch_dists_size bytes label = (normalizedContent bytes).length + 1 := by
  unfold tpch_dists_size tpch_dists_data
  rw [literalSpan_eq bytes label hq]
  simp

/-! Section: Claim theorems -/

/-- C1 (counterexample): the size value emitted for the scenario inputs is
13 for the hello-world input and 2 for the empty input, not 12 and 1 as
claimed: the raw literal also holds the line feed the template writes right
after the opening marker. -/
theorem size_symbol_counterexample :
    tpch_dists_size helloBytes ("dists.dss".data) = 13
    ∧ tpch_dists_size ([] : List (Fin 256)) ("dists.dss".data) = 2
    ∧ tpch_dists_size helloBytes ("dists.dss".data) ≠ 12
    ∧ tpch_dists_size ([] : List (Fin 256)) ("dists.dss".data) ≠ 1 := by
  have h1 := tpch_dists_size_eq helloBytes ("dists.dss".data) (by decide)
  have h2 := tpch_dists_size_eq ([] : List (Fin 256)) ("dists.dss".data) (by decide)
  have hc1 : (normalizedContent helloBytes).length = 12 := by decide
  have hc2 : (normalizedContent ([] : List (Fin 256))).length = 1 := by decide
  rw [hc1] at h1
  rw [hc2] at h2
  omega

/-- C1 (amended): for every input and every label free of double quotes,
the size value emitted in the generated unit equals the length in bytes of
the normalized Content plus one, the extra byte being the line feed the
template itself places after the opening marker; in particular the
hello-world scenario yields 13 and the empty input yields 2. -/
theorem size_symbol_value (bytes : List (Fin 256)) (label : List Char)
    (hq : '"' ∉ label) :
    tpch_dists_size bytes label = (normalizedContent bytes).length + 1 :=
  tpch_dists_size_eq bytes label hq

/-- Witness for C1 (amended) at the scenario input. -/
theorem size_symbol_value_witness :
    '"' ∉ ("dists.dss".data)
    ∧ tpch_dists_size helloBytes ("dists.dss".data)
      = (normalizedContent helloBytes).length + 1 :=
  ⟨by decide, size_symbol_value helloBytes ("dists.dss".data) (by decide)⟩

/-- C2: for every content string and the fixed base token, the sequence
closing-parenthesis followed by the chosen delimiter does not occur
anywhere in the content. -/
theorem delimiter_safety (content : List Char) :
    ¬ (')' :: choose_delimiter content baseToken) <:+: content :=
  (isSubstr_eq_false_iff _ _).mp (choose_delimiter_good content baseToken)

/-- C3 (counterexample): for the input bytes of the text a LF LF, the
normalized Content ends with two line feeds: its last and its
second-to-last characters are both LF, so normalization does not guarantee
exactly one trailing line feed. -/
theorem normalization_counterexample :
    (normalizedContent [97, 10, 10]).getLast? = some '\n'
    ∧ (normalizedContent [97, 10, 10]).dropLast.getLast? = some '\n' := by
  decide

/-- C3 (amended): for every input byte sequence the normalized Content
contains no carriage return and ends with a line feed (at least one; an
input that already ends in several line feeds keeps them all). -/
theorem normalization_no_cr_trailing_newline (bytes : List (Fin 256)) :
    '\r' ∉ normalizedContent bytes
    ∧ (normalizedContent bytes).getLast? = some '\n' :=
  ⟨normalizeText_no_cr _, normalizeText_getLast _⟩

/-- C4: choose_delimiter returns the base whenever the closing sequence of
the base does not occur in the content (in particular always on empty
content); otherwise it returns the candidate with the least positive index
whose closing sequence does not occur, every smaller positive index being
rejected. -/
theorem choose_delimiter_first_fit (data base : List Char) :
    (isSubstr (')' :: base) data = false → choose_delimiter data base = base)
    ∧ (data = [] → choose_delimiter data base = base)
    ∧ (isSubstr (')' :: base) data = true →
        ∃ k, 1 ≤ k ∧ choose_delimiter data base = candidate base k
          ∧ isSubstr (')' :: candidate base k) data = false
          ∧ ∀ j, 1 ≤ j → j < k → isSubstr (')' :: candidate base j) data = true) := by
  refine ⟨?_, ?_, ?_⟩
  · intro h
    unfold choose_delimiter
    rw [if_neg (by simp [h])]
  · intro h
    subst h
    unfold choose_delimiter
    rw [if_neg (by
      show ¬ ((')' :: base).isEmpty = true)
      simp [List.isEmpty])]
  · intro h
    unfold choose_delimiter
    rw [if_pos h, chooseLoop_eq_firstGoodFrom]
    exact ⟨firstGoodFrom data base 1, firstGoodFrom_ge data base 1, rfl,
      firstGoodFrom_good data base 1,
      fun j h1 hj => firstGoodFrom_min data base 1 j h1 hj⟩

/-- Witness for C4: a content containing the closing sequence of the base
token yields the suffix one candidate, and empty content yields the base. -/
theorem choose_delimiter_first_fit_witness :
    choose_delimiter (")TPCH_DISTS sample".data) ("TPCH_DISTS".data)
      = "TPCH_DISTS_1".data
    ∧ choose_delimiter [] ("TPCH_DISTS".data) = "TPCH_DISTS".data := by
  constructor
  · obtain ⟨k, hk1, heq, hgood, hmin⟩ :=
      (choose_delimiter_first_fit (")TPCH_DISTS sample".data) ("TPCH_DISTS".data)).2.2
        (by decide)
    have hk : k = 1 := by
      by_contra hne
      have hmin1 := hmin 1 (by omega) (by omega)
      have hfalse : isSubstr (')' :: candidate ("TPCH_DISTS".data) 1)
          (")TPCH_DISTS sample".data) = false := by decide
      rw [hmin1] at hfalse
      exact Bool.noConfusion hfalse
    rw [hk] at heq
    rw [heq]
    decide
  · exact (choose_delimiter_first_fit [] ("TPCH_DISTS".data)).2.1 rfl

/-- C5: for every finite content and base the retry loop of
choose_delimiter answers within some finite iteration budget, returning an
accepted candidate; no iteration cap is built into the loop itself. -/
theorem choose_delimiter_terminates (d b : List Char) :
    ∃ fuel, chooseLoopFuel d b fuel 1 = some (chooseLoop d b 1)
      ∧ isSubstr (')' :: chooseLoop d b 1) d = false := by
  refine ⟨firstGoodFrom d b 1 - 1 + 1, ?_, ?_⟩
  · exact chooseLoopFuel_sufficient d b _ 1 (by omega)
  · rw [chooseLoop_eq_firstGoodFrom]
    exact firstGoodFrom_good d b 1

/-- C6: for every input and every label free of double quotes, the byte
span of the generated file strictly between the opening and the closing
raw-string markers is one line feed (the framing character the template
adds) followed by the normalized Content; stripping that line feed yields
the normalized Content exactly. -/
theorem round_trip (bytes : List (Fin 256)) (label : List Char) (hq : '"' ∉ label) :
    literalSpan bytes label = '\n' :: normalizedContent bytes
    ∧ (literalSpan bytes label).drop 1 = normalizedContent bytes := by
  have h := literalSpan_eq bytes label hq
  exact ⟨h, by rw [h, List.drop_succ_cons, List.drop_zero]⟩

/-- Witness for C6 at the scenario input. -/
theorem round_trip_witness :
    '"' ∉ ("dists.dss".data)
    ∧ literalSpan helloBytes ("dists.dss".data) = '\n' :: normalizedContent helloBytes :=
  ⟨by decide, (round_trip helloBytes ("dists.dss".data) (by decide)).1⟩

/-- C7: a successful UTF-8 decode is used as-is; a failed UTF-8 decode
falls back to Latin-1, which succeeds on every byte sequence, mapping every
byte to the character of the same code; hence decoding always produces a
string. -/
theorem decode_fallback (bytes : List (Fin 256)) :
    (∀ s, utf8Decode bytes = some s → decodeInput bytes = s)
    ∧ (utf8Decode bytes = none → decodeInput bytes = latin1Decode bytes)
    ∧ (latin1Decode bytes).length = bytes.length
    ∧ (latin1Decode bytes).map Char.toNat = bytes.map Fin.val :=
  ⟨decodeInput_of_some bytes, decodeInput_of_none bytes,
    latin1Decode_length bytes, latin1Decode_vals bytes⟩

/-- Witness for C7 at an invalid UTF-8 input (a lone 255 byte). -/
theorem decode_fallback_witness :
    utf8Decode [255] = none ∧ decodeInput [255] = latin1Decode [255] :=
  ⟨by decide, (decode_fallback [255]).2.1 (by decide)⟩

/-- C8: the rendered output is a pure function of the input bytes and the
label: a run of the tool writes the same output whatever the previous state
of the output file, and a second run over the first one changes nothing. -/
theorem tool_deterministic (bytes : List (Fin 256)) (label : List Char)
    (prev1 prev2 : Option (List Char)) :
    runTool bytes label prev1 = runTool bytes label prev2
    ∧ runTool bytes label (runTool bytes label prev1) = runTool bytes label prev1 :=
  ⟨rfl, rfl⟩

/-- C9: for every input and every label free of double quotes, the
generated array holds one line feed followed by the normalized Content and
the implicit NUL terminator; excluding the terminator its length is the
Content length plus one. -/
theorem data_array_layout (bytes : List (Fin 256)) (label : List Char)
    (hq : '"' ∉ label) :
    (tpch_dists_data bytes label).dropLast = '\n' :: normalizedContent bytes
    ∧ (tpch_dists_data bytes label).length - 1 = (normalizedContent bytes).length + 1 := by
  unfold tpch_dists_data
  rw [literalSpan_eq bytes label hq]
  constructor
  · exact List.dropLast_concat
  · simp

/-- Witness for C9 at the scenario input. -/
theorem data_array_layout_witness :
    '"' ∉ ("dists.dss".data)
    ∧ (tpch_dists_data helloBytes ("dists.dss".data)).dropLast
      = '\n' :: normalizedContent helloBytes :=
  ⟨by decide, (data_array_layout helloBytes ("dists.dss".data) (by decide)).1⟩

/-- C10: the string-level normalization is idempotent: applied to its own
output it returns that output unchanged. -/
theorem normalization_idempotent (s : List Char) :
    normalizeText (normalizeText s) = normalizeText s :=
  normalizeText_idem s

end GenerateDistsEmbedded
